import Mathlib

namespace LonelyAssistant

/-!
Verification development for the Lonely Assistant plugin
(repository: typerhack/lonely_assistant_for_obsidian).

The TypeScript sources are shallowly embedded: pure methods become Lean
functions, stateful classes become explicit state passing, JS strings are
modelled either as Lean `String` (where only equality is used) or as
`List Char` (where character-level scanning is required; `Str` below),
JS numbers holding timestamps become `Int`, other numeric fields `Nat`,
fallible code returns `Option`/`Except`, and JS exceptions escaping a
method are modelled as an `Option String` error component of the result.
-/

/-! ## Consent manager (src/src/tools/ConsentManager.ts) -/

/-- Persisted per-tool consent policy (`ConsentMode` in types). -/
inductive ConsentMode where
  | always_ask
  | session_allow
  | always_allow
  | never_allow
deriving DecidableEq, Repr

/-- Risk classification of a tool. -/
inductive RiskLevel where
  | safe
  | low
  | medium
  | high
deriving DecidableEq, Repr

/-- How one call of `ConsentManager.requestConsent` resolves.  Each
constructor names the `return` statement of the source that produced the
decision; `dialog` stands for the interactive `showConsentDialog` path,
and `defaultDeny` is the trailing `return false`. -/
inductive ConsentDecision where
  | neverDeny
  | devApprove
  | alwaysApprove
  | sessionApprove
  | dialog
  | defaultDeny
deriving DecidableEq, Repr

/-- Embedding of `ConsentManager.requestConsent` (ConsentManager.ts lines
105 to 127) as a decision function.  `developerMode` is the settings flag,
`mode` the persisted consent mode for the tool (after the `always_ask`
fallback of `getConsentMode`), `risk` and `canBypass` the static tool
fields, and `sessionHas` tells whether `sessionConsent` already holds the
tool name. -/
def requestConsent (developerMode : Bool) (mode : ConsentMode)
    (risk : RiskLevel) (canBypass : Bool) (sessionHas : Bool) :
    ConsentDecision :=
  if mode = ConsentMode.never_allow then ConsentDecision.neverDeny
  else if developerMode ∧ risk = RiskLevel.safe then ConsentDecision.devApprove
  else if mode = ConsentMode.always_allow ∧ canBypass then ConsentDecision.alwaysApprove
  else if mode = ConsentMode.session_allow ∧ sessionHas then ConsentDecision.sessionApprove
  else if mode = ConsentMode.session_allow ∨ mode = ConsentMode.always_ask ∨ ¬ canBypass then
    ConsentDecision.dialog
  else ConsentDecision.defaultDeny

/-- Decisions that approve the invocation with no interactive prompt. -/
def ConsentDecision.approvesSilently : ConsentDecision → Bool
  | ConsentDecision.devApprove => true
  | ConsentDecision.alwaysApprove => true
  | ConsentDecision.sessionApprove => true
  | _ => false

/-! ## Character-level strings

JS strings that the code scans character by character are modelled as
lists of characters.  `length`, `split`, `trim`, `startsWith`,
`toLowerCase` and template concatenation translate to the operations
below; `String.prototype.length` counts characters of the (effectively
ASCII) vault text. -/

/-- A JS string viewed as its character list. -/
abbrev Str := List Char

/-- Whitespace test backing `String.prototype.trim`. -/
def isWsChar (c : Char) : Bool := c.isWhitespace

/-- Modelling `s.trim()`: drop whitespace from both ends. -/
def trimStr (l : Str) : Str :=
  ((l.dropWhile isWsChar).reverse.dropWhile isWsChar).reverse

/-- Modelling `arr.join(String.fromCharCode(10))`, i.e. `join("\n")`. -/
def joinLines : List Str → Str
  | [] => []
  | [l] => l
  | l :: l2 :: ls => l ++ '\n' :: joinLines (l2 :: ls)

/-- Modelling `s.split("\n")`: split at every newline; the empty string
yields one empty piece, as in JS. -/
def splitLinesStr : Str → List Str
  | [] => [[]]
  | c :: rest =>
    if c = '\n' then [] :: splitLinesStr rest
    else
      match splitLinesStr rest with
      | [] => [[c]]
      | h :: t => (c :: h) :: t

/-! ## Rate limiter (src/src/tools/RateLimiter.ts) -/

/-- Lookup in an association list, modelling `Map.get` (first, and in our
uses only, binding for the key). -/
def lookupAssoc {α : Type} (m : List (String × α)) (k : String) : Option α :=
  (m.find? (fun p => p.1 == k)).map (fun p => p.2)

/-- Modelling `Map.set`: replace the value in place when the key is
present (JS maps keep insertion order), append otherwise. -/
def setAssoc {α : Type} (m : List (String × α)) (k : String) (v : α) :
    List (String × α) :=
  if m.any (fun p => p.1 == k) then
    m.map (fun p => if p.1 == k then (k, v) else p)
  else m ++ [(k, v)]

/-- Projection of the `ToolSettings` interface (types.ts) to the two
fields `RateLimiter` reads: the per-tool limit map and the global limit. -/
structure RateLimitSettings where
  rateLimits : List (String × Nat)
  globalRateLimit : Nat

/-- Per-tool limit as computed in `checkLimit`:
`this.settings.rateLimits[toolName] || 60`, where the JS `||` also maps a
configured `0` to the default `60`. -/
def toolLimitOf (s : RateLimitSettings) (toolName : String) : Nat :=
  match lookupAssoc s.rateLimits toolName with
  | some v => if v = 0 then 60 else v
  | none => 60

/-- Mutable state of `RateLimiter`: the per-tool timestamp lists and the
global timestamp list.  Timestamps are `Date.now()` values, modelled as
integers. -/
structure RateLimiterState where
  limits : List (String × List Int)
  globalTimestamps : List Int
deriving DecidableEq, Repr

/-- Embedding of `RateLimiter.cleanupOldTimestamps` (RateLimiter.ts lines
44 to 52): drop timestamps `ts` with `ts ≤ now − 60000` from every
per-tool list and from the global list. -/
def cleanupOldTimestamps (now : Int) (st : RateLimiterState) :
    RateLimiterState :=
  let cutoff := now - 60000
  { limits := st.limits.map (fun p => (p.1, p.2.filter (fun ts => decide (cutoff < ts)))),
    globalTimestamps := st.globalTimestamps.filter (fun ts => decide (cutoff < ts)) }

/-- Embedding of `RateLimiter.checkLimit` (RateLimiter.ts lines 13 to 42):
purge, test the per-tool list (when present) against the tool limit, test
the global list against the global limit, and on admission record `now`
in both lists. -/
def checkLimit (s : RateLimitSettings) (now : Int) (toolName : String)
    (st : RateLimiterState) : Bool × RateLimiterState :=
  match lookupAssoc (cleanupOldTimestamps now st).limits toolName with
  | some ts =>
    if toolLimitOf s toolName ≤ ts.length then
      (false, cleanupOldTimestamps now st)
    else if s.globalRateLimit ≤ (cleanupOldTimestamps now st).globalTimestamps.length then
      (false, cleanupOldTimestamps now st)
    else (true, { limits := setAssoc (cleanupOldTimestamps now st).limits toolName (ts ++ [now]),
                  globalTimestamps := (cleanupOldTimestamps now st).globalTimestamps ++ [now] })
  | none =>
    if s.globalRateLimit ≤ (cleanupOldTimestamps now st).globalTimestamps.length then
      (false, cleanupOldTimestamps now st)
    else (true, { limits := setAssoc (cleanupOldTimestamps now st).limits toolName [now],
                  globalTimestamps := (cleanupOldTimestamps now st).globalTimestamps ++ [now] })

/-- Run a sequence of `checkLimit` calls for one tool at the given
timestamps, returning the admission outcomes and the final state. -/
def runCalls (s : RateLimitSettings) (toolName : String) :
    List Int → RateLimiterState → List Bool × RateLimiterState
  | [], st => ([], st)
  | t :: rest, st =>
    let r1 := checkLimit s t toolName st
    let r2 := runCalls s toolName rest r1.2
    (r1.1 :: r2.1, r2.2)

/-! ## Tool registry (ToolRegistry, second class of src/src/tools/AuditLogger.ts) -/

/-- Outcome of one tool execution (`ToolResult` in types.ts), restricted
to the fields the registry manipulates: success flag, optional error
message, optional execution identifier. -/
structure ToolResult where
  success : Bool
  error : Option String
  executionId : Option String
deriving DecidableEq, Repr

/-- Behaviour of `tool.execute(params)`: either a returned result or a
thrown exception carrying a message. -/
inductive ExecOutcome where
  | ok (r : ToolResult)
  | thrown (msg : String)

/-- A registered tool, reduced to the data `executeWithConsent` and
`registerProvider` use: its unique name and its execute behaviour as a
function of the parameter map. -/
structure RegTool where
  name : String
  execBehavior : List (String × String) → ExecOutcome

/-- A tool provider: identifier plus its tool list. -/
structure Provider where
  id : String
  tools : List RegTool

/-- Mutable maps of `ToolRegistry`: `providers` and `tools`, both JS maps
modelled as insertion-ordered association lists. -/
structure RegistryState where
  providers : List (String × Provider)
  tools : List (String × RegTool)

/-- Embedding of `ToolRegistry.getTool`. -/
def getTool (st : RegistryState) (name : String) : Option RegTool :=
  lookupAssoc st.tools name

/-- Tool-registration loop of `ToolRegistry.registerProvider` (lines 284
to 289): walk the provider's tools, throwing on the first name collision;
a throw leaves every mutation made so far in place.  The thrown message,
if any, is the first component. -/
def registerToolsLoop (st : RegistryState) :
    List RegTool → Option String × RegistryState
  | [] => (none, st)
  | t :: rest =>
    if (lookupAssoc st.tools t.name).isSome then
      (some ("Tool " ++ t.name ++ " is already registered"), st)
    else registerToolsLoop { st with tools := st.tools ++ [(t.name, t)] } rest

/-- Embedding of `ToolRegistry.registerProvider` (lines 276 to 290):
reject duplicate provider ids, otherwise insert the provider into the
provider map and then register its tools one by one. -/
def registerProvider (st : RegistryState) (p : Provider) :
    Option String × RegistryState :=
  if (lookupAssoc st.providers p.id).isSome then
    (some ("Provider " ++ p.id ++ " is already registered"), st)
  else
    registerToolsLoop { st with providers := st.providers ++ [(p.id, p)] } p.tools

/-- Network classification used by `executeWithConsent`
(`ToolRegistry.isNetworkTool`). -/
def isNetworkTool (t : RegTool) : Bool :=
  t.name == "web_search" || t.name == "web_fetch"

/-- Inputs that `ToolRegistry.executeWithConsent` consults besides the
tool map: the enabled-tool setting, the network-block flag, the outcome
of the asynchronous consent and rate-limit gates for this invocation, and
the identifier `generateExecutionId` would produce. -/
structure ExecEnv where
  tools : List RegTool
  enabledTools : List String
  blockExternalRequests : Bool
  consentGranted : Bool
  rateOk : Bool
  freshId : String

/-- Calls `executeWithConsent` makes into the audit logger: a consent
denial logged with the attempted parameters, or an execution record. -/
inductive AuditEvent where
  | consentDenied (tool : String) (params : List (String × String))
  | execLogged (tool : String) (executionId : String) (success : Bool)
deriving DecidableEq, Repr

/-- Embedding of `ToolRegistry.executeWithConsent` (lines 317 to 387):
resolve the tool, reject when disabled, reject network tools under the
global block, gate through consent (logging a denial with the attempted
parameters), gate through the rate limiter, then run the tool inside a
try/catch that converts a thrown exception into a failure result; a
successful result gets a generated execution id when the tool returned
none, and the execution is recorded to the audit logger. -/
def executeWithConsent (env : ExecEnv) (toolName : String)
    (params : List (String × String)) : ToolResult × List AuditEvent :=
  match env.tools.find? (fun t => t.name == toolName) with
  | none =>
    (⟨false, some ("Tool '" ++ toolName ++ "' not found"), none⟩, [])
  | some tool =>
    if ! env.enabledTools.contains toolName then
      (⟨false, some ("Tool '" ++ toolName ++ "' is not enabled"), none⟩, [])
    else if env.blockExternalRequests && isNetworkTool tool then
      (⟨false, some "External network requests are blocked in settings", none⟩, [])
    else if ! env.consentGranted then
      (⟨false, some "User denied consent for tool execution", none⟩,
        [AuditEvent.consentDenied tool.name params])
    else if ! env.rateOk then
      (⟨false, some ("Rate limit exceeded for tool '" ++ toolName
          ++ "'. Please wait and try again."), none⟩, [])
    else
      match tool.execBehavior params with
      | ExecOutcome.ok r =>
        let result : ToolResult :=
          ⟨r.success, r.error, some (r.executionId.getD env.freshId)⟩
        (result, [AuditEvent.execLogged toolName
          (result.executionId.getD "unknown") result.success])
      | ExecOutcome.thrown msg =>
        (⟨false, some msg, none⟩,
          [AuditEvent.execLogged toolName "unknown" false])

/-! ## ApplyPatch tool (ApplyPatchTool in src/unnamed/part_003)

The vault is an association list from file path to file content, and the
undo stack the private `undoStack` map from execution id to pre-image
content.  The execution id (built in the source from `Date.now` and
`Math.random`) is passed in as a parameter, and the on-disk backup copy
(`createBackup`, active when `backupEnabled`) is outside the modelled
state, which only tracks vault contents and the undo stack. -/

/-- One line-range replacement (`PatchOperation` in the source). -/
structure PatchOperation where
  startLine : Nat
  endLine : Nat
  newContent : Str
deriving DecidableEq, Repr

/-- One `splice` step of `ApplyPatchTool.applyPatches`: clamp the
one-based start line to zero, clamp the end line to the line count, and
replace the designated line range by the lines of the replacement text.
Natural subtraction reproduces the `Math.max(0, ...)` clamping of the
source, and `take`/`drop` saturate exactly like `Array.prototype.splice`
on out-of-range indices. -/
def spliceOnePatch (lines : List Str) (p : PatchOperation) : List Str :=
  let startIdx := p.startLine - 1
  let endIdx := min lines.length p.endLine
  let newLines := splitLinesStr p.newContent
  lines.take startIdx ++ newLines ++ lines.drop (startIdx + (endIdx - startIdx))

/-- Embedding of `ApplyPatchTool.applyPatches` (part_003 lines 158 to
172): split into lines, apply the patches in descending `startLine` order
(the stable JS sort with comparator `b.startLine - a.startLine`), join
back with newlines. -/
def applyPatches (content : Str) (patches : List PatchOperation) : Str :=
  let lines := splitLinesStr content
  let sorted := patches.mergeSort (fun a b => decide (b.startLine ≤ a.startLine))
  joinLines (sorted.foldl spliceOnePatch lines)

/-- Embedding of the success and error paths of `ApplyPatchTool.execute`
(part_003 lines 70 to 147) on a vault of plain files: parameter checks,
file lookup, patch application, write-back, and the undo-stack entry
keyed by the execution id.  Returns the result, the new vault and the new
undo stack. -/
def applyPatchExecute (vault : List (String × Str))
    (undoStack : List (String × Str)) (executionId : String) (path : String)
    (patches : List PatchOperation) :
    ToolResult × List (String × Str) × List (String × Str) :=
  if path == "" then
    (⟨false, some "Path parameter is required", none⟩, vault, undoStack)
  else if patches.isEmpty then
    (⟨false, some "Patches parameter is required and must be a non-empty array",
      none⟩, vault, undoStack)
  else
    match lookupAssoc vault path with
    | none =>
      (⟨false, some ("File not found: " ++ path), none⟩, vault, undoStack)
    | some originalContent =>
      let newContent := applyPatches originalContent patches
      (⟨true, none, some executionId⟩,
        setAssoc vault path newContent,
        setAssoc undoStack executionId originalContent)

/-- Modelling `Map.delete`. -/
def eraseAssoc {α : Type} (m : List (String × α)) (k : String) :
    List (String × α) :=
  m.filter (fun p => ! (p.1 == k))

/-- Embedding of `ApplyPatchTool.undo` (part_003 lines 149 to 156): look
up the recorded pre-image for the execution id, throw when absent, and
otherwise delete the stack entry.  The source reads `originalContent`
from the stack but never writes it back to the vault, so the vault
component is returned unchanged. -/
def applyPatchUndo (vault : List (String × Str))
    (undoStack : List (String × Str)) (executionId : String) :
    Except String Unit × List (String × Str) × List (String × Str) :=
  match lookupAssoc undoStack executionId with
  | none =>
    (Except.error ("No undo information found for execution ID: " ++ executionId),
      vault, undoStack)
  | some _originalContent =>
    (Except.ok Unit.unit, vault, eraseAssoc undoStack executionId)

/-! ## Retrieval/indexing service (RAGService in src/unnamed/part_010) -/

/-- Modelling `String.prototype.toLowerCase` on the (effectively ASCII)
vault text. -/
def toLowerStr (l : Str) : Str := l.map Char.toLower

/-- Fuel-driven worker for `String.prototype.split` with a non-newline
separator: cut at each leftmost non-overlapping occurrence of `sep`.  The
fuel only serves to make the recursion structural; `splitOnStr` supplies
enough for it never to run out. -/
def splitOnFuel (sep : Str) : Nat → Str → List Str
  | 0, l => [l]
  | fuel + 1, l =>
    match l with
    | [] => [[]]
    | c :: rest =>
      if sep ≠ [] ∧ sep.isPrefixOf (c :: rest) then
        [] :: splitOnFuel sep fuel ((c :: rest).drop sep.length)
      else
        match splitOnFuel sep fuel rest with
        | [] => [[c]]
        | h :: t => (c :: h) :: t

/-- Modelling `s.split(sep)` for a non-empty separator (every separator
the scoring code passes is a token of length at least three). -/
def splitOnStr (sep l : Str) : List Str := splitOnFuel sep (l.length + 1) l

/-- Modelling `String.prototype.includes`: substring containment, by
scanning for a position where `pat` is a leading segment of the rest. -/
def strIncludes : Str → Str → Bool
  | s, pat =>
    if pat.isPrefixOf s then true
    else
      match s with
      | [] => false
      | _ :: rest => strIncludes rest pat

/-- Character class of the token regex `[a-z0-9]`. -/
def isTokenChar (c : Char) : Bool :=
  ('a' ≤ c && c ≤ 'z') || ('0' ≤ c && c ≤ '9')

/-- Maximal runs of token characters of a string, in order; the greedy
global regex `[a-z0-9]{3,}` of `RAGService.tokenize` matches exactly the
runs of length at least three. -/
def tokenRuns : Str → List Str
  | [] => []
  | c :: rest =>
    if isTokenChar c then
      match rest with
      | [] => [[c]]
      | d :: _ =>
        if isTokenChar d then
          match tokenRuns rest with
          | [] => [[c]]
          | h :: t => (c :: h) :: t
        else [c] :: tokenRuns rest
    else tokenRuns rest

/-- Embedding of `RAGService.tokenize` (part_010 lines 362 to 364):
lowercase the text, take the maximal alphanumeric runs of length at least
three. -/
def tokenize (text : Str) : List Str :=
  (tokenRuns (toLowerStr text)).filter (fun r => decide (3 ≤ r.length))

/-- Embedding of the `VaultChunk` record (part_010 lines 4 to 13). -/
structure VaultChunk where
  id : Str
  file : Str
  headings : List Str
  content : Str
  contentLower : Str
  updated : Nat
  start : Nat
  «end» : Nat
deriving DecidableEq, Repr

/-- Embedding of `RAGService.updateHeadings` (part_010 lines 341 to 351):
the regex `(#+)\s*(.*)` anchored at the line start yields the heading
level (count of leading hash marks) and the trimmed title; on a match the
stack is truncated to `level - 1` entries and the title pushed, otherwise
the stack is returned unchanged. -/
def updateHeadings (existing : List Str) (rawLine : Str) : List Str :=
  let hashes := rawLine.takeWhile (fun c => c == '#')
  if hashes.length = 0 then existing
  else existing.take (hashes.length - 1) ++ [trimStr (rawLine.drop hashes.length)]

/-- Test used by `chunkFile` on each line: `line.trim().startsWith(hash)`
where the argument list below receives the already-trimmed line. -/
def startsHash : Str → Bool
  | [] => false
  | c :: _ => c == '#'

/-- Loop state of `RAGService.chunkFile`: emitted chunks, the lines of
the chunk being accumulated, the heading stack, and the running chunk
index, character offset and pending chunk start offset. -/
structure ChunkState where
  chunks : List VaultChunk
  current : List Str
  headings : List Str
  chunkIndex : Nat
  offset : Nat
  chunkStart : Nat

/-- Embedding of the `pushChunk` closure of `chunkFile` (part_010 lines
300 to 320): join and trim the accumulated lines; discard a blank chunk
(resetting only `current`), otherwise emit the chunk with the current
heading path and offsets and advance `chunkStart`. -/
def pushChunk (path : Str) (mtime : Nat) (st : ChunkState) : ChunkState :=
  let text := trimStr (joinLines st.current)
  if text = [] then { st with current := [] }
  else
    { st with
      chunks := st.chunks ++ [{
        id := path ++ ':' :: ':' :: (Nat.repr st.chunkIndex).data,
        file := path,
        headings := st.headings,
        content := text,
        contentLower := toLowerStr text,
        updated := mtime,
        start := st.chunkStart,
        «end» := st.offset }],
      chunkIndex := st.chunkIndex + 1,
      current := [],
      chunkStart := st.offset }

/-- One iteration of the `for line of lines` loop of `chunkFile` (part_010
lines 322 to 335): a heading line flushes the pending chunk and updates
the heading stack; any other line is accumulated, flushing as soon as the
accumulated text exceeds 800 characters; the offset then advances past
the line and its newline. -/
def chunkStep (path : Str) (mtime : Nat) (st : ChunkState) (line : Str) :
    ChunkState :=
  let st2 :=
    if startsHash (trimStr line) then
      let st3 := pushChunk path mtime st
      { st3 with headings := updateHeadings st3.headings line }
    else
      let cur := st.current ++ [line]
      if 800 < (joinLines cur).length then
        pushChunk path mtime { st with current := cur }
      else { st with current := cur }
  { st2 with offset := st2.offset + (line.length + 1) }

/-- Embedding of `RAGService.chunkFile` (part_010 lines 291 to 339). -/
def chunkFile (path : Str) (mtime : Nat) (content : Str) : List VaultChunk :=
  (pushChunk path mtime
    ((splitLinesStr content).foldl (chunkStep path mtime)
      ⟨[], [], [], 0, 0, 0⟩)).chunks

/-- Per-chunk outcome of the chunking invariants (C8): offsets are
ordered; the content keeps a non-whitespace character (whitespace-only
chunks are discarded); and the content is the trimmed join of a non-empty
batch of accumulated lines none of which is a heading line, in which at
most the last line exceeds the 800-character soft bound (the batch is
flushed as soon as the join passes 800). -/
def ChunkOk (c : VaultChunk) : Prop :=
  c.start ≤ c.«end»
  ∧ (∃ ch ∈ c.content, isWsChar ch = false)
  ∧ ∃ cur : List Str, cur ≠ []
      ∧ c.content = trimStr (joinLines cur)
      ∧ (∀ l ∈ cur, startsHash (trimStr l) = false)
      ∧ ((joinLines cur).length ≤ 800
        ∨ (joinLines cur.dropLast).length ≤ 800)

/-- Invariant carried through the `chunkFile` loop: all emitted chunks
are well-formed and contiguous, the next chunk start continues the last
emitted end, the accumulated lines are non-heading lines joining to at
most 800 characters, and the pending start does not exceed the running
offset. -/
structure ChunkInv (st : ChunkState) : Prop where
  ok : ∀ c ∈ st.chunks, ChunkOk c
  chain : st.chunks.Chain' (fun a b => a.«end» = b.start)
  lastEnd : ∀ c, st.chunks.getLast? = some c → c.«end» = st.chunkStart
  curNoHead : ∀ l ∈ st.current, startsHash (trimStr l) = false
  curBound : (joinLines st.current).length ≤ 800
  startLe : st.chunkStart ≤ st.offset

/-- Provenance class of a retrieved chunk. -/
inductive ChunkSource where
  | active
  | retrieved
  | mention
deriving DecidableEq, Repr

/-- Embedding of the `RetrievedChunk` record (part_010 lines 15 to 19). -/
structure RetrievedChunk where
  chunk : VaultChunk
  score : Nat
  source : ChunkSource
deriving DecidableEq, Repr

/-- Embedding of `RAGService.scoreChunk` (part_010 lines 426 to 443): zero
for an empty token list; otherwise, per token, add five points per
non-overlapping occurrence in the lowercased content (counted as
`split(token).length - 1`) and ten points for every heading of the
outline path whose lowercasing contains the token. -/
def scoreChunk (chunk : VaultChunk) (tokens : List Str) : Nat :=
  if tokens.isEmpty then 0
  else
    tokens.foldl (fun score token =>
      let occurrences := (splitOnStr token chunk.contentLower).length - 1
      let score2 := if 0 < occurrences then score + occurrences * 5 else score
      chunk.headings.foldl
        (fun s heading => if strIncludes (toLowerStr heading) token then s + 10 else s)
        score2) 0

/-- Modelled from the claim wording, for comparison with `scoreChunk`:
five times the summed raw occurrence counts plus ten times the count of
tokens appearing as a substring of at least one heading of the outline
path. -/
def specScoreChunk (chunk : VaultChunk) (tokens : List Str) : Nat :=
  5 * (tokens.map (fun token =>
        (splitOnStr token chunk.contentLower).length - 1)).sum
  + 10 * (tokens.filter (fun token =>
        chunk.headings.any (fun h => strIncludes (toLowerStr h) token))).length

/-- Value of the `ragMaxContext` field of `DEFAULT_SETTINGS` (part_009
line 47); the remaining settings fields play no role in the retrieval
claims. -/
def DEFAULT_SETTINGS_ragMaxContext : Nat := 4

/-- The filter phase of `RAGService.retrieveChunks` (part_010 lines 405
to 421), index-tagged: walk `this.chunks` in order, skip chunks of
excluded files, chunks scoring zero, and chunks whose sanitized content
is blank, and keep the rest as scored `retrieved` entries.  The sanitizer
(`sanitizeForPrompt`, a fixed regex pipeline) is passed as a parameter;
every property proved below holds for an arbitrary sanitizer.  The `Nat`
tag records the chunk's position in `this.chunks`. -/
def retrieveScored (sanitize : Str → Str) (chunks : List VaultChunk)
    (tokens : List Str) (excludeFiles : List Str) :
    List (Nat × RetrievedChunk) :=
  chunks.enum.filterMap (fun p =>
    if p.2.file ∈ excludeFiles then none
    else if scoreChunk p.2 tokens ≤ 0 then none
    else if trimStr (sanitize p.2.content) = [] then none
    else some (p.1, ⟨p.2, scoreChunk p.2 tokens, ChunkSource.retrieved⟩))

/-- Order realised by `scored.sort((a, b) => b.score - a.score)`: the JS
sort is stable, so its outcome is the unique ordering that is descending
on scores and keeps the original position order inside equal-score ties;
sorting the index-tagged entries by this total relation computes it. -/
def jsByScoreDesc (a b : Nat × RetrievedChunk) : Bool :=
  decide (b.2.score < a.2.score)
    || (a.2.score == b.2.score && decide (a.1 ≤ b.1))

/-- Embedding of `RAGService.retrieveChunks` (part_010 lines 400 to 424),
index-tagged: compute the budget `max(0, ragMaxContext - excluded)`
(natural subtraction), return nothing on a zero budget, otherwise filter,
stable-sort by descending score and truncate to the budget. -/
def retrieveChunksIdx (sanitize : Str → Str) (chunks : List VaultChunk)
    (ragMaxContext : Nat) (tokens : List Str) (excludeFiles : List Str) :
    List (Nat × RetrievedChunk) :=
  if ragMaxContext - excludeFiles.length = 0 then []
  else
    ((retrieveScored sanitize chunks tokens excludeFiles).mergeSort
        jsByScoreDesc).take (ragMaxContext - excludeFiles.length)

/-- The retrieval result as the source returns it, with the index tags
dropped. -/
def retrieveChunks (sanitize : Str → Str) (chunks : List VaultChunk)
    (ragMaxContext : Nat) (tokens : List Str) (excludeFiles : List Str) :
    List RetrievedChunk :=
  (retrieveChunksIdx sanitize chunks ragMaxContext tokens excludeFiles).map
    (fun p => p.2)

/-! ## Theorems -/

/-- C9 counterexample: with developer mode on, a safe-risk tool with
`canBypass = false` and persisted mode `always_allow` is approved by the
developer-mode branch and never reaches the interactive dialog, contrary
to the claim that such a tool always reaches the dialog. -/
theorem requestConsent_devmode_skips_dialog :
    requestConsent true ConsentMode.always_allow RiskLevel.safe false false
      = ConsentDecision.devApprove ∧
    ConsentDecision.devApprove ≠ ConsentDecision.dialog := by
  constructor
  · rfl
  · decide

/-- C9 (amended): the trailing default-deny branch of `requestConsent` is
unreachable — every combination of developer mode, consent mode, risk
level, bypass flag and session cache resolves through one of the five
listed branches; and a tool with mode `always_allow` and
`canBypass = false` reaches the interactive dialog whenever the
developer-mode safe-tool bypass does not apply. -/
theorem requestConsent_defaultDeny_unreachable :
    (∀ (dev : Bool) (mode : ConsentMode) (risk : RiskLevel)
      (bypass sess : Bool),
      requestConsent dev mode risk bypass sess ≠ ConsentDecision.defaultDeny) ∧
    (∀ (dev : Bool) (risk : RiskLevel) (sess : Bool),
      (dev = false ∨ risk ≠ RiskLevel.safe) →
      requestConsent dev ConsentMode.always_allow risk false sess
        = ConsentDecision.dialog) := by
  constructor
  · intro dev mode risk bypass sess
    cases dev <;> cases mode <;> cases risk <;> cases bypass <;> cases sess <;> decide
  · intro dev risk sess h
    cases dev <;> cases risk <;> cases sess <;> simp_all [requestConsent]

/-- C9 witness: the amended dialog clause evaluated at a concrete input
with developer mode off. -/
theorem requestConsent_defaultDeny_unreachable_witness :
    requestConsent false ConsentMode.always_allow RiskLevel.high false false
      = ConsentDecision.dialog :=
  requestConsent_defaultDeny_unreachable.2 false RiskLevel.high false (Or.inl rfl)

/-- C2 counterexample: with developer mode on, a safe-risk tool with
`canBypass = false` and mode `always_allow` is approved silently, contrary
to the claim that such a tool still shows the interactive prompt. -/
theorem requestConsent_devmode_silent_approve :
    ConsentDecision.approvesSilently
      (requestConsent true ConsentMode.always_allow RiskLevel.safe false false)
      = true ∧
    requestConsent true ConsentMode.always_allow RiskLevel.safe false false
      ≠ ConsentDecision.dialog := by
  constructor
  · rfl
  · decide

/-- C2 (amended): the consent decision procedure satisfies: `never_allow`
denies immediately with no dialog; `always_allow` with `canBypass = true`
approves without prompting; when the developer-mode safe-tool bypass does
not apply, `always_allow` with `canBypass = false` still shows the
interactive prompt; and `session_allow` with a prior in-session approval
for the tool approves without prompting. -/
theorem requestConsent_gating :
    (∀ (dev : Bool) (risk : RiskLevel) (bypass sess : Bool),
      requestConsent dev ConsentMode.never_allow risk bypass sess
        = ConsentDecision.neverDeny) ∧
    (∀ (dev : Bool) (risk : RiskLevel) (sess : Bool),
      ConsentDecision.approvesSilently
        (requestConsent dev ConsentMode.always_allow risk true sess) = true) ∧
    (∀ (dev : Bool) (risk : RiskLevel) (sess : Bool),
      (dev = false ∨ risk ≠ RiskLevel.safe) →
      requestConsent dev ConsentMode.always_allow risk false sess
        = ConsentDecision.dialog) ∧
    (∀ (dev : Bool) (risk : RiskLevel) (bypass : Bool),
      ConsentDecision.approvesSilently
        (requestConsent dev ConsentMode.session_allow risk bypass true) = true) := by
  refine ⟨?_, ?_, ?_, ?_⟩
  · intro dev risk bypass sess; rfl
  · intro dev risk sess
    cases dev <;> cases risk <;> cases sess <;> decide
  · intro dev risk sess h
    cases dev <;> cases risk <;> cases sess <;> simp_all [requestConsent]
  · intro dev risk bypass
    cases dev <;> cases risk <;> cases bypass <;> decide

/-- C2 witness: the prompting clause of the gating theorem at a concrete
input (developer mode off, high risk, no bypass). -/
theorem requestConsent_gating_witness :
    requestConsent false ConsentMode.always_allow RiskLevel.high false true
      = ConsentDecision.dialog :=
  requestConsent_gating.2.2.1 false RiskLevel.high true (Or.inl rfl)

theorem toolLimitOf_pos (s : RateLimitSettings) (toolName : String) :
    0 < toolLimitOf s toolName := by
  unfold toolLimitOf
  cases lookupAssoc s.rateLimits toolName with
  | none => decide
  | some v =>
    by_cases h : v = 0
    · simp [h]
    · simp [h]
      omega

theorem lookupAssoc_setAssoc_self {α : Type} (m : List (String × α))
    (k : String) (v : α) : lookupAssoc (setAssoc m k v) k = some v := by
  induction m with
  | nil => simp [setAssoc, lookupAssoc]
  | cons p m ih =>
    rcases p with ⟨a, b⟩
    by_cases h : a = k
    · subst h
      have e1 : setAssoc ((a, b) :: m) a v
          = (a, v) :: m.map (fun p => if p.1 == a then (a, v) else p) := by
        simp [setAssoc]
      rw [e1]
      simp [lookupAssoc]
    · by_cases h2 : m.any (fun q => q.1 == k)
      · have e1 : setAssoc ((a, b) :: m) k v = (a, b) :: setAssoc m k v := by
          simp [setAssoc, h2, h]
        rw [e1]
        rw [show lookupAssoc ((a, b) :: setAssoc m k v) k
            = lookupAssoc (setAssoc m k v) k from by simp [lookupAssoc, h]]
        exact ih
      · have e1 : setAssoc ((a, b) :: m) k v = (a, b) :: setAssoc m k v := by
          simp [setAssoc, h2, h]
        rw [e1]
        rw [show lookupAssoc ((a, b) :: setAssoc m k v) k
            = lookupAssoc (setAssoc m k v) k from by simp [lookupAssoc, h]]
        exact ih

/-- Step behaviour of `checkLimit` from a state holding one per-tool entry
whose timestamps (shared with the global list) all survive the purge. -/
theorem checkLimit_single (s : RateLimitSettings) (toolName : String)
    (pre : List Int) (t : Int) (hin : ∀ y ∈ pre, t - 60000 < y) :
    checkLimit s t toolName ⟨[(toolName, pre)], pre⟩ =
      (if toolLimitOf s toolName ≤ pre.length then
        (false, ⟨[(toolName, pre)], pre⟩)
      else if s.globalRateLimit ≤ pre.length then
        (false, ⟨[(toolName, pre)], pre⟩)
      else (true, ⟨[(toolName, pre ++ [t])], pre ++ [t]⟩)) := by
  have hfil : pre.filter (fun ts => decide (t - 60000 < ts)) = pre :=
    List.filter_eq_self.mpr (fun a ha => decide_eq_true (hin a ha))
  simp [checkLimit, cleanupOldTimestamps, lookupAssoc, setAssoc, hfil]

/-- Invariant step for a run of same-tool calls: starting from a state in
which the per-tool and global lists both equal `pre`, the outcomes and
final global list are fully determined by the per-tool limit. -/
theorem runCalls_invariant (s : RateLimitSettings) (toolName : String)
    (hg : toolLimitOf s toolName ≤ s.globalRateLimit) :
    ∀ (times pre : List Int),
    (∀ x ∈ times, ∀ y ∈ pre, x - 60000 < y) →
    (∀ x ∈ times, ∀ y ∈ times, x - 60000 < y) →
    pre.length ≤ toolLimitOf s toolName →
    (runCalls s toolName times ⟨[(toolName, pre)], pre⟩).1
      = (List.range times.length).map
          (fun i => decide (pre.length + i < toolLimitOf s toolName))
    ∧ (runCalls s toolName times ⟨[(toolName, pre)], pre⟩).2.globalTimestamps
      = pre ++ times.take (toolLimitOf s toolName - pre.length) := by
  intro times
  induction times with
  | nil => intro pre _ _ _; simp [runCalls]
  | cons t rest ih =>
    intro pre hpre hwin hlen
    have hstep := checkLimit_single s toolName pre t
      (fun y hy => hpre t (List.mem_cons_self t rest) y hy)
    by_cases hfull : toolLimitOf s toolName ≤ pre.length
    · have hpl : pre.length = toolLimitOf s toolName := le_antisymm hlen hfull
      have hrec := ih pre
        (fun x hx y hy => hpre x (List.mem_cons_of_mem t hx) y hy)
        (fun x hx y hy => hwin x (List.mem_cons_of_mem t hx) y (List.mem_cons_of_mem t hy))
        hlen
      have hck : checkLimit s t toolName ⟨[(toolName, pre)], pre⟩
          = (false, ⟨[(toolName, pre)], pre⟩) := by
        rw [hstep]; simp [hfull]
      constructor
      · simp only [runCalls, hck, hrec.1, List.length_cons,
          List.range_succ_eq_map, List.map_cons, List.map_map]
        rw [List.cons_eq_cons]
        constructor
        · simp [hpl]
        · refine List.map_congr_left (fun i _ => ?_)
          simp only [Function.comp]
          rw [decide_eq_decide]
          omega
      · simp only [runCalls, hck, hrec.2]
        have : toolLimitOf s toolName - pre.length = 0 := by omega
        simp [this]
    · push_neg at hfull
      have hck : checkLimit s t toolName ⟨[(toolName, pre)], pre⟩
          = (true, ⟨[(toolName, pre ++ [t])], pre ++ [t]⟩) := by
        rw [hstep]
        have h2 : ¬ s.globalRateLimit ≤ pre.length := by omega
        simp [hfull.not_le, h2]
      have hrec := ih (pre ++ [t])
        (fun x hx y hy => by
          rcases List.mem_append.mp hy with h | h
          · exact hpre x (List.mem_cons_of_mem t hx) y h
          · rw [List.mem_singleton.mp h]
            exact hwin x (List.mem_cons_of_mem t hx) t (List.mem_cons_self t rest))
        (fun x hx y hy => hwin x (List.mem_cons_of_mem t hx) y (List.mem_cons_of_mem t hy))
        (by simp only [List.length_append, List.length_singleton]; omega)
      constructor
      · simp only [runCalls, hck, hrec.1, List.length_cons,
          List.range_succ_eq_map, List.map_cons, List.map_map]
        rw [List.cons_eq_cons]
        constructor
        · simp [hfull]
        · refine List.map_congr_left (fun i _ => ?_)
          simp only [Function.comp, List.length_append, List.length_singleton]
          rw [decide_eq_decide]
          omega
      · simp only [runCalls, hck, hrec.2]
        have hk : toolLimitOf s toolName - pre.length
            = (toolLimitOf s toolName - (pre ++ [t]).length) + 1 := by
          simp only [List.length_append, List.length_singleton]
          omega
        rw [hk, List.take_succ_cons, List.append_assoc]
        simp

/-- C3: `checkLimit` purges both lists first and rejects exactly when the
purged per-tool list has reached the tool limit or the purged global list
has reached the global limit; a rejected call leaves only the purge
behind (no timestamp recorded) while an admitted call appends the current
timestamp to both lists; consequently, from a fresh limiter, calls for
one tool at timestamps lying within one rolling 60-second window are
admitted exactly while the admission count is below the tool limit — the
call after the limit-th is rejected — and the recorded timestamps are
exactly the first limit-many call times. -/
theorem checkLimit_window_exactness :
    (∀ (s : RateLimitSettings) (now : Int) (toolName : String)
      (st : RateLimiterState),
      ((checkLimit s now toolName st).1 = false ↔
        toolLimitOf s toolName ≤
          ((lookupAssoc (cleanupOldTimestamps now st).limits toolName).getD []).length
        ∨ s.globalRateLimit ≤ (cleanupOldTimestamps now st).globalTimestamps.length)) ∧
    (∀ (s : RateLimitSettings) (now : Int) (toolName : String)
      (st : RateLimiterState),
      (checkLimit s now toolName st).1 = false →
      (checkLimit s now toolName st).2 = cleanupOldTimestamps now st) ∧
    (∀ (s : RateLimitSettings) (now : Int) (toolName : String)
      (st : RateLimiterState),
      (checkLimit s now toolName st).1 = true →
      (checkLimit s now toolName st).2.globalTimestamps
        = (cleanupOldTimestamps now st).globalTimestamps ++ [now]
      ∧ lookupAssoc (checkLimit s now toolName st).2.limits toolName
        = some (((lookupAssoc (cleanupOldTimestamps now st).limits toolName).getD [])
            ++ [now])) ∧
    (∀ (s : RateLimitSettings) (toolName : String) (times : List Int),
      (∀ x ∈ times, ∀ y ∈ times, x - 60000 < y) →
      toolLimitOf s toolName ≤ s.globalRateLimit →
      (runCalls s toolName times ⟨[], []⟩).1
        = (List.range times.length).map
            (fun i => decide (i < toolLimitOf s toolName))
      ∧ (runCalls s toolName times ⟨[], []⟩).2.globalTimestamps
        = times.take (toolLimitOf s toolName)) := by
  refine ⟨?_, ?_, ?_, ?_⟩
  · intro s now toolName st
    have hpos := toolLimitOf_pos s toolName
    simp only [checkLimit]
    cases h : lookupAssoc (cleanupOldTimestamps now st).limits toolName with
    | none =>
      simp only [h, Option.getD_none, List.length_nil]
      split_ifs with h2
      · simp [h2]
      · simp [h2]
        omega
    | some ts =>
      simp only [h, Option.getD_some]
      split_ifs with h1 h2
      · simp [h1]
      · simp [h2]
      · simp [h1, h2]
  · intro s now toolName st
    simp only [checkLimit]
    cases h : lookupAssoc (cleanupOldTimestamps now st).limits toolName with
    | none =>
      dsimp only
      split_ifs with h2
      · intro _; rfl
      · intro hfalse; exact absurd hfalse (by simp)
    | some ts =>
      dsimp only
      split_ifs with h1 h2
      · intro _; rfl
      · intro _; rfl
      · intro hfalse; exact absurd hfalse (by simp)
  · intro s now toolName st
    simp only [checkLimit]
    cases h : lookupAssoc (cleanupOldTimestamps now st).limits toolName with
    | none =>
      dsimp only
      split_ifs with h2
      · intro htrue; exact absurd htrue (by simp)
      · intro _
        refine ⟨rfl, ?_⟩
        simp only [h, Option.getD_none, List.nil_append]
        exact lookupAssoc_setAssoc_self _ _ _
    | some ts =>
      dsimp only
      split_ifs with h1 h2
      · intro htrue; exact absurd htrue (by simp)
      · intro htrue; exact absurd htrue (by simp)
      · intro _
        refine ⟨rfl, ?_⟩
        simp only [h, Option.getD_some]
        exact lookupAssoc_setAssoc_self _ _ _
  · intro s toolName times hwin hg
    have hpos := toolLimitOf_pos s toolName
    cases times with
    | nil => simp [runCalls]
    | cons t rest =>
      have hfirst : checkLimit s t toolName ⟨[], []⟩
          = (true, ⟨[(toolName, [t])], [t]⟩) := by
        simp only [checkLimit, cleanupOldTimestamps, lookupAssoc, List.map_nil,
          List.filter_nil, List.find?_nil, Option.map_none', List.length_nil]
        rw [if_neg (by omega)]
        simp [setAssoc]
      have hrec := runCalls_invariant s toolName hg rest [t]
        (fun x hx y hy => by
          rw [List.mem_singleton.mp hy]
          exact hwin x (List.mem_cons_of_mem t hx) t (List.mem_cons_self t rest))
        (fun x hx y hy => hwin x (List.mem_cons_of_mem t hx) y (List.mem_cons_of_mem t hy))
        (by simp only [List.length_singleton]; omega)
      constructor
      · simp only [runCalls, hfirst, hrec.1, List.length_cons,
          List.range_succ_eq_map, List.map_cons, List.map_map]
        rw [List.cons_eq_cons]
        constructor
        · simp [hpos]
        · refine List.map_congr_left (fun i _ => ?_)
          simp only [Function.comp, List.length_singleton, List.length_cons,
            List.length_nil]
          rw [decide_eq_decide]
          omega
      · simp only [runCalls, hfirst, hrec.2, List.length_singleton]
        have hk : toolLimitOf s toolName = (toolLimitOf s toolName - 1) + 1 := by omega
        rw [hk, List.take_succ_cons]
        simp

/-- C3 witness: with a per-tool limit of 2 and global limit 10, three
calls for the same tool at timestamps 0, 1, 2 are admitted, admitted,
rejected, and only the two admitted timestamps are recorded. -/
theorem checkLimit_window_exactness_witness :
    (runCalls ⟨[("grep", 2)], 10⟩ "grep" [0, 1, 2] ⟨[], []⟩).1
      = [true, true, false]
    ∧ (runCalls ⟨[("grep", 2)], 10⟩ "grep" [0, 1, 2] ⟨[], []⟩).2.globalTimestamps
      = [0, 1] := by
  have h := checkLimit_window_exactness.2.2.2 ⟨[("grep", 2)], 10⟩ "grep"
    [0, 1, 2] (by decide) (by decide)
  constructor
  · rw [h.1]; decide
  · rw [h.2]; decide

theorem lookupAssoc_append_right {α : Type} (m₁ m₂ : List (String × α))
    (k : String) (h : lookupAssoc m₁ k = none) :
    lookupAssoc (m₁ ++ m₂) k = lookupAssoc m₂ k := by
  induction m₁ with
  | nil => simp
  | cons p m ih =>
    by_cases hp : p.1 == k
    · exact absurd h (by simp [lookupAssoc, hp])
    · have h2 : lookupAssoc m k = none := by
        simpa [lookupAssoc, hp] using h
      simpa [lookupAssoc, hp] using ih h2

theorem lookupAssoc_append_left {α : Type} (m₁ m₂ : List (String × α))
    (k : String) (v : α) (h : lookupAssoc m₁ k = some v) :
    lookupAssoc (m₁ ++ m₂) k = some v := by
  induction m₁ with
  | nil => exact absurd h (by simp [lookupAssoc])
  | cons p m ih =>
    by_cases hp : p.1 == k
    · simpa [lookupAssoc, hp] using h
    · have h2 : lookupAssoc m k = some v := by
        simpa [lookupAssoc, hp] using h
      simpa [lookupAssoc, hp] using ih h2

theorem registerToolsLoop_collision :
    ∀ (pre : List RegTool) (st : RegistryState) (t : RegTool)
      (post : List RegTool),
    (∀ t' ∈ pre, lookupAssoc st.tools t'.name = none) →
    pre.Pairwise (fun a b => a.name ≠ b.name) →
    ((lookupAssoc st.tools t.name).isSome = true
      ∨ t.name ∈ pre.map (fun x => x.name)) →
    (registerToolsLoop st (pre ++ t :: post)).1
      = some ("Tool " ++ t.name ++ " is already registered")
    ∧ (registerToolsLoop st (pre ++ t :: post)).2.providers = st.providers
    ∧ (∀ (k : String) (v : RegTool), lookupAssoc st.tools k = some v →
        lookupAssoc (registerToolsLoop st (pre ++ t :: post)).2.tools k = some v)
    ∧ (∀ t' ∈ pre,
        lookupAssoc (registerToolsLoop st (pre ++ t :: post)).2.tools t'.name
          = some t') := by
  intro pre
  induction pre with
  | nil =>
    intro st t post _ _ hcol
    have hsome : (lookupAssoc st.tools t.name).isSome = true := by
      rcases hcol with h | h
      · exact h
      · simp at h
    rcases Option.isSome_iff_exists.mp hsome with ⟨v, hv⟩
    refine ⟨?_, ?_, ?_, ?_⟩
    · simp [registerToolsLoop, hsome]
    · simp [registerToolsLoop, hsome]
    · intro k v hk; simpa [registerToolsLoop, hsome] using hk
    · intro t' ht'; simp at ht'
  | cons a pre ih =>
    intro st t post hpre hpair hcol
    have ha : lookupAssoc st.tools a.name = none :=
      hpre a (List.mem_cons_self a pre)
    have hstep : registerToolsLoop st ((a :: pre) ++ t :: post)
        = registerToolsLoop { st with tools := st.tools ++ [(a.name, a)] }
            (pre ++ t :: post) := by
      simp [registerToolsLoop, ha]
    have hane : ∀ t' ∈ pre, t'.name ≠ a.name := by
      intro t' ht'
      exact fun he => (List.pairwise_cons.mp hpair).1 t' ht' he.symm
    have hpre2 : ∀ t' ∈ pre,
        lookupAssoc (st.tools ++ [(a.name, a)]) t'.name = none := by
      intro t' ht'
      rw [lookupAssoc_append_right _ _ _ (hpre t' (List.mem_cons_of_mem a ht'))]
      simp [lookupAssoc, Ne.symm (hane t' ht')]
    have hcol2 : (lookupAssoc (st.tools ++ [(a.name, a)]) t.name).isSome = true
        ∨ t.name ∈ pre.map (fun x => x.name) := by
      rcases hcol with h | h
      · left
        rcases Option.isSome_iff_exists.mp h with ⟨v, hv⟩
        rw [lookupAssoc_append_left _ _ _ _ hv]
        rfl
      · simp only [List.map_cons, List.mem_cons] at h
        rcases h with h | h
        · left
          rw [h, lookupAssoc_append_right _ _ _ ha]
          simp [lookupAssoc]
        · right; exact h
    have hrec := ih { st with tools := st.tools ++ [(a.name, a)] } t post
      hpre2 (List.pairwise_cons.mp hpair).2 hcol2
    have hkeep : ∀ (k : String) (v : RegTool), lookupAssoc st.tools k = some v →
        lookupAssoc (registerToolsLoop st ((a :: pre) ++ t :: post)).2.tools k
          = some v := by
      intro k v hk
      rw [hstep]
      exact hrec.2.2.1 k v (lookupAssoc_append_left _ _ _ _ hk)
    refine ⟨?_, ?_, hkeep, ?_⟩
    · rw [hstep]; exact hrec.1
    · rw [hstep]; exact hrec.2.1
    · intro t' ht'
      rcases List.mem_cons.mp ht' with he | hm
      · rw [he, hstep]
        refine hrec.2.2.1 a.name a ?_
        rw [lookupAssoc_append_right _ _ _ ha]
        simp [lookupAssoc]
      · rw [hstep]
        exact hrec.2.2.2 t' hm

/-- C10: `registerProvider` is not atomic on failure.  If the provider id
is fresh and its tool list splits as `pre ++ t :: post` where every tool
of `pre` is collision-free (against the registry and against each other)
and `t` is the first colliding tool, then registration throws the tool
collision error, yet the provider stays in the provider map and every
tool of `pre` stays registered and resolvable through `getTool`. -/
theorem registerProvider_not_atomic (st : RegistryState) (p : Provider)
    (pre : List RegTool) (t : RegTool) (post : List RegTool)
    (hid : lookupAssoc st.providers p.id = none)
    (hsplit : p.tools = pre ++ t :: post)
    (hpre : ∀ t' ∈ pre, lookupAssoc st.tools t'.name = none)
    (hpair : pre.Pairwise (fun a b => a.name ≠ b.name))
    (hcol : (lookupAssoc st.tools t.name).isSome = true
      ∨ t.name ∈ pre.map (fun x => x.name)) :
    (registerProvider st p).1
      = some ("Tool " ++ t.name ++ " is already registered")
    ∧ lookupAssoc (registerProvider st p).2.providers p.id = some p
    ∧ ∀ t' ∈ pre, getTool (registerProvider st p).2 t'.name = some t' := by
  have hnot : ¬ (lookupAssoc st.providers p.id).isSome = true := by
    simp [hid]
  have hre : registerProvider st p
      = registerToolsLoop
          { st with providers := st.providers ++ [(p.id, p)] } p.tools := by
    simp [registerProvider, hid]
  have hloop := registerToolsLoop_collision pre
    { st with providers := st.providers ++ [(p.id, p)] } t post hpre hpair hcol
  rw [hre, hsplit]
  refine ⟨hloop.1, ?_, ?_⟩
  · rw [hloop.2.1]
    rw [lookupAssoc_append_right _ _ _ hid]
    simp [lookupAssoc]
  · intro t' ht'
    exact hloop.2.2.2 t' ht'

/-- C10 witness: a registry already holding a tool named "grep" rejects a
provider offering tools [find, grep-clone]; the provider and the find
tool nevertheless remain registered. -/
theorem registerProvider_not_atomic_witness :
    ((registerProvider
        ⟨[], [("grep", ⟨"grep", fun _ => ExecOutcome.thrown "boom"⟩)]⟩
        ⟨"builtin", [⟨"find_files", fun _ => ExecOutcome.thrown "boom"⟩,
          ⟨"grep", fun _ => ExecOutcome.thrown "boom"⟩]⟩).1
      = some "Tool grep is already registered")
    ∧ (getTool (registerProvider
        ⟨[], [("grep", ⟨"grep", fun _ => ExecOutcome.thrown "boom"⟩)]⟩
        ⟨"builtin", [⟨"find_files", fun _ => ExecOutcome.thrown "boom"⟩,
          ⟨"grep", fun _ => ExecOutcome.thrown "boom"⟩]⟩).2 "find_files"
      = some ⟨"find_files", fun _ => ExecOutcome.thrown "boom"⟩) := by
  have h := registerProvider_not_atomic
    ⟨[], [("grep", ⟨"grep", fun _ => ExecOutcome.thrown "boom"⟩)]⟩
    ⟨"builtin", [⟨"find_files", fun _ => ExecOutcome.thrown "boom"⟩,
      ⟨"grep", fun _ => ExecOutcome.thrown "boom"⟩]⟩
    [⟨"find_files", fun _ => ExecOutcome.thrown "boom"⟩]
    ⟨"grep", fun _ => ExecOutcome.thrown "boom"⟩ []
    (by simp [lookupAssoc])
    rfl
    (by
      intro t' ht'
      rw [List.mem_singleton.mp ht']
      simp [lookupAssoc])
    (by simp)
    (by left; simp [lookupAssoc])
  exact ⟨h.1, h.2.2 ⟨"find_files", fun _ => ExecOutcome.thrown "boom"⟩
    (List.mem_singleton.mpr rfl)⟩

/-- C7: `executeWithConsent` never lets a failure escape as an exception —
an unknown tool, a disabled tool, a network tool under the global block,
a consent denial, a rate-limit rejection and a thrown tool exception each
yield a returned result with `success = false` and an error message.  The
equations hold for every valuation of the later gates, which shows the
gates fire in the order resolve, enabled, network block, consent, rate
limit, execute; and the consent denial is the one case that logs a
consent-denied audit record carrying the attempted parameters. -/
theorem executeWithConsent_structured_failures :
    ∀ (env : ExecEnv) (toolName : String) (params : List (String × String)),
    (env.tools.find? (fun t => t.name == toolName) = none →
      executeWithConsent env toolName params
        = (⟨false, some ("Tool '" ++ toolName ++ "' not found"), none⟩, []))
    ∧ (∀ tool, env.tools.find? (fun t => t.name == toolName) = some tool →
      (env.enabledTools.contains toolName = false →
        executeWithConsent env toolName params
          = (⟨false, some ("Tool '" ++ toolName ++ "' is not enabled"), none⟩, []))
      ∧ (env.enabledTools.contains toolName = true →
          (env.blockExternalRequests && isNetworkTool tool) = true →
          executeWithConsent env toolName params
            = (⟨false, some "External network requests are blocked in settings",
                none⟩, []))
      ∧ (env.enabledTools.contains toolName = true →
          (env.blockExternalRequests && isNetworkTool tool) = false →
          env.consentGranted = false →
          executeWithConsent env toolName params
            = (⟨false, some "User denied consent for tool execution", none⟩,
              [AuditEvent.consentDenied tool.name params]))
      ∧ (env.enabledTools.contains toolName = true →
          (env.blockExternalRequests && isNetworkTool tool) = false →
          env.consentGranted = true →
          env.rateOk = false →
          executeWithConsent env toolName params
            = (⟨false, some ("Rate limit exceeded for tool '" ++ toolName
                ++ "'. Please wait and try again."), none⟩, []))
      ∧ (env.enabledTools.contains toolName = true →
          (env.blockExternalRequests && isNetworkTool tool) = false →
          env.consentGranted = true →
          env.rateOk = true →
          ∀ msg, tool.execBehavior params = ExecOutcome.thrown msg →
          executeWithConsent env toolName params
            = (⟨false, some msg, none⟩,
              [AuditEvent.execLogged toolName "unknown" false]))) := by
  intro env toolName params
  constructor
  · intro hfind
    simp [executeWithConsent, hfind]
  · intro tool hfind
    refine ⟨?_, ?_, ?_, ?_, ?_⟩
    · intro hen
      simp only [executeWithConsent, hfind]
      rw [if_pos (by rw [hen]; rfl)]
    · intro hen hblock
      simp only [executeWithConsent, hfind]
      rw [if_neg (by rw [hen]; simp), if_pos hblock]
    · intro hen hblock hcons
      simp only [executeWithConsent, hfind]
      rw [if_neg (by rw [hen]; simp), if_neg (by rw [hblock]; simp),
        if_pos (by rw [hcons]; rfl)]
    · intro hen hblock hcons hrate
      simp only [executeWithConsent, hfind]
      rw [if_neg (by rw [hen]; simp), if_neg (by rw [hblock]; simp),
        if_neg (by rw [hcons]; simp), if_pos (by rw [hrate]; rfl)]
    · intro hen hblock hcons hrate msg hthrow
      simp only [executeWithConsent, hfind]
      rw [if_neg (by rw [hen]; simp), if_neg (by rw [hblock]; simp),
        if_neg (by rw [hcons]; simp), if_neg (by rw [hrate]; simp), hthrow]

/-- C7 witness: a consent denial for an enabled tool returns the
structured denial result and logs a consent-denied record with the
attempted parameters. -/
theorem executeWithConsent_structured_failures_witness :
    executeWithConsent
        ⟨[⟨"grep", fun _ => ExecOutcome.ok ⟨true, none, none⟩⟩],
          ["grep"], false, false, true, "exec-1"⟩
        "grep" [("pattern", "x")]
      = (⟨false, some "User denied consent for tool execution", none⟩,
        [AuditEvent.consentDenied "grep" [("pattern", "x")]]) :=
  ((executeWithConsent_structured_failures
      ⟨[⟨"grep", fun _ => ExecOutcome.ok ⟨true, none, none⟩⟩],
        ["grep"], false, false, true, "exec-1"⟩
      "grep" [("pattern", "x")]).2
    ⟨"grep", fun _ => ExecOutcome.ok ⟨true, none, none⟩⟩ rfl).2.2.1
    (by decide) rfl rfl

theorem applyPatches_single (content : Str) (p : PatchOperation) :
    applyPatches content [p]
      = joinLines (spliceOnePatch (splitLinesStr content) p) := by
  unfold applyPatches
  rw [List.mergeSort_of_sorted (List.pairwise_singleton _ _)]
  rfl

/-- C1: the pre-image is recorded under the returned execution id, but
undo does not restore it.  On the file `a.md` containing two lines
`x`, `y`, patching line 1 to `z` succeeds, stores the pre-image under the
execution id, and rewrites the file; the subsequent undo for that id
completes without error yet leaves the file at the patched content, which
differs from the recorded pre-image. -/
theorem applyPatch_undo_does_not_restore :
    ((applyPatchExecute [("a.md", "x\ny".data)] [] "patch-1" "a.md"
        [⟨1, 1, "z".data⟩]).1.success = true)
    ∧ (lookupAssoc (applyPatchExecute [("a.md", "x\ny".data)] [] "patch-1"
        "a.md" [⟨1, 1, "z".data⟩]).2.2 "patch-1" = some "x\ny".data)
    ∧ (lookupAssoc (applyPatchExecute [("a.md", "x\ny".data)] [] "patch-1"
        "a.md" [⟨1, 1, "z".data⟩]).2.1 "a.md" = some "z\ny".data)
    ∧ ((applyPatchUndo
        (applyPatchExecute [("a.md", "x\ny".data)] [] "patch-1" "a.md"
          [⟨1, 1, "z".data⟩]).2.1
        (applyPatchExecute [("a.md", "x\ny".data)] [] "patch-1" "a.md"
          [⟨1, 1, "z".data⟩]).2.2
        "patch-1").1 = Except.ok Unit.unit)
    ∧ (lookupAssoc (applyPatchUndo
        (applyPatchExecute [("a.md", "x\ny".data)] [] "patch-1" "a.md"
          [⟨1, 1, "z".data⟩]).2.1
        (applyPatchExecute [("a.md", "x\ny".data)] [] "patch-1" "a.md"
          [⟨1, 1, "z".data⟩]).2.2
        "patch-1").2.1 "a.md" = some "z\ny".data)
    ∧ ("z\ny".data ≠ "x\ny".data) := by
  have hexec : applyPatchExecute [("a.md", "x\ny".data)] [] "patch-1" "a.md"
      [⟨1, 1, "z".data⟩]
      = (⟨true, none, some "patch-1"⟩, [("a.md", "z\ny".data)],
        [("patch-1", "x\ny".data)]) := by
    simp only [applyPatchExecute, applyPatches_single]
    decide
  rw [hexec]
  refine ⟨rfl, by decide, by decide, ?_, ?_, by decide⟩
  · simp [applyPatchUndo, lookupAssoc]
  · simp [applyPatchUndo, lookupAssoc]

theorem takeWhile_hash_replicate_append (n : Nat) (rest : Str)
    (hrest : rest.head? ≠ some '#') :
    (List.replicate n '#' ++ rest).takeWhile (fun c => c == '#')
      = List.replicate n '#' := by
  induction n with
  | zero =>
    simp only [List.replicate, List.nil_append]
    cases rest with
    | nil => rfl
    | cons c cs =>
      have hc : ¬ (c == '#') = true := by
        intro h
        exact hrest (by rw [beq_iff_eq.mp h]; rfl)
      simp [List.takeWhile_cons, hc]
  | succ n ih =>
    simp [List.replicate_succ, List.takeWhile_cons, ih]

/-- C5: the outline stack update is exactly truncate-then-push.  For any
current stack, any heading level and any title text not beginning with a
further hash mark, `updateHeadings` returns the stack truncated to
`level - 1` entries with the trimmed title appended; and on the document
`#A ##B ###C ##D hello` the content after `##D` carries the outline path
`[A, D]`, not `[A, B, D]`. -/
theorem updateHeadings_truncate_push :
    (∀ (existing : List Str) (level : Nat) (rest : Str),
      0 < level →
      rest.head? ≠ some '#' →
      updateHeadings existing (List.replicate level '#' ++ rest)
        = existing.take (level - 1) ++ [trimStr rest])
    ∧ ((chunkFile "d.md".data 0 "#A\n##B\n###C\n##D\nhello".data).map
        (fun c => (c.headings, c.content))
        = [([ "A".data, "D".data ], "hello".data)]) := by
  constructor
  · intro existing level rest hlevel hrest
    have hdrop : List.drop level (List.replicate level '#' ++ rest) = rest := by
      have h2 := List.drop_left (List.replicate level '#') rest
      rwa [List.length_replicate] at h2
    unfold updateHeadings
    rw [takeWhile_hash_replicate_append level rest hrest]
    dsimp only
    simp only [List.length_replicate]
    rw [if_neg (by omega), hdrop]
  · decide

/-- C5 witness: on the stack `[A, B, C]`, the heading line `## D`
truncates to one entry and pushes the trimmed title `D`. -/
theorem updateHeadings_truncate_push_witness :
    updateHeadings ["A".data, "B".data, "C".data]
        (List.replicate 2 '#' ++ " D".data)
      = ["A".data, "B".data, "C".data].take 1 ++ [trimStr " D".data] :=
  updateHeadings_truncate_push.1 ["A".data, "B".data, "C".data] 2 " D".data
    (by decide) (by decide)

/-- C4 counterexample: a chunk produced from a real document whose two
enclosing headings both contain the query token.  Its computed score is
twenty (ten per containing heading), while the claimed formula — ten per
token contained in at least one heading — yields ten. -/
theorem scoreChunk_heading_double_count :
    chunkFile "n.md".data 0 "# foo\n## foobar\nxyz".data
      = [⟨"n.md::0".data, "n.md".data, ["foo".data, "foobar".data],
          "xyz".data, "xyz".data, 0, 0, 20⟩]
    ∧ scoreChunk ⟨"n.md::0".data, "n.md".data, ["foo".data, "foobar".data],
          "xyz".data, "xyz".data, 0, 0, 20⟩ (tokenize "foo".data) = 20
    ∧ specScoreChunk ⟨"n.md::0".data, "n.md".data, ["foo".data, "foobar".data],
          "xyz".data, "xyz".data, 0, 0, 20⟩ (tokenize "foo".data) = 10
    ∧ (20 : Nat) ≠ 10 := by
  refine ⟨by decide, by decide, by decide, by decide⟩

theorem tokenRuns_cons (c : Char) (rest : Str) :
    tokenRuns (c :: rest)
      = if isTokenChar c then
          match rest with
          | [] => [[c]]
          | d :: _ =>
            if isTokenChar d then
              match tokenRuns rest with
              | [] => [[c]]
              | h :: t => (c :: h) :: t
            else [c] :: tokenRuns rest
        else tokenRuns rest := rfl

theorem tokenRuns_chars :
    ∀ (l : Str), ∀ r ∈ tokenRuns l, ∀ c ∈ r, isTokenChar c = true := by
  intro l
  induction l with
  | nil => simp [tokenRuns]
  | cons a rest ih =>
    intro r hr c hc
    rw [tokenRuns_cons] at hr
    by_cases ha : isTokenChar a
    · rw [if_pos ha] at hr
      cases rest with
      | nil =>
        dsimp only at hr
        rw [List.mem_singleton.mp hr] at hc
        rw [List.mem_singleton.mp hc]
        exact ha
      | cons d rest2 =>
        dsimp only at hr
        by_cases hd : isTokenChar d
        · rw [if_pos hd] at hr
          cases htr : tokenRuns (d :: rest2) with
          | nil =>
            rw [htr] at hr
            rw [List.mem_singleton.mp hr] at hc
            rw [List.mem_singleton.mp hc]
            exact ha
          | cons h t =>
            rw [htr] at hr
            rcases List.mem_cons.mp hr with hr1 | hr2
            · rw [hr1] at hc
              rcases List.mem_cons.mp hc with hca | hch
              · rw [hca]; exact ha
              · exact ih h (htr ▸ List.mem_cons_self h t) c hch
            · exact ih r (htr ▸ List.mem_cons_of_mem h hr2) c hc
        · rw [if_neg hd] at hr
          rcases List.mem_cons.mp hr with hr1 | hr2
          · rw [hr1] at hc
            rw [List.mem_singleton.mp hc]
            exact ha
          · exact ih r hr2 c hc
    · rw [if_neg ha] at hr
      exact ih r hr c hc

theorem headings_foldl_add (hs : List Str) (token : Str) (init : Nat) :
    hs.foldl (fun s h => if strIncludes (toLowerStr h) token then s + 10 else s)
        init
      = init + 10 * hs.countP (fun h => strIncludes (toLowerStr h) token) := by
  induction hs generalizing init with
  | nil => simp
  | cons h hs ih =>
    simp only [List.foldl_cons]
    by_cases hh : strIncludes (toLowerStr h) token
    · rw [if_pos hh, ih, List.countP_cons]
      simp only [hh, if_true]
      omega
    · rw [if_neg hh, ih, List.countP_cons]
      simp [hh]

theorem scoreChunk_foldl_sum (chunk : VaultChunk) (tokens : List Str)
    (init : Nat) :
    tokens.foldl (fun score token =>
      let occurrences := (splitOnStr token chunk.contentLower).length - 1
      let score2 := if 0 < occurrences then score + occurrences * 5 else score
      chunk.headings.foldl
        (fun s heading =>
          if strIncludes (toLowerStr heading) token then s + 10 else s)
        score2) init
      = init + (tokens.map (fun token =>
          ((splitOnStr token chunk.contentLower).length - 1) * 5
          + 10 * chunk.headings.countP
              (fun h => strIncludes (toLowerStr h) token))).sum := by
  induction tokens generalizing init with
  | nil => simp
  | cons t ts ih =>
    simp only [List.foldl_cons, List.map_cons, List.sum_cons]
    rw [ih, headings_foldl_add]
    by_cases ho : 0 < (splitOnStr t chunk.contentLower).length - 1
    · simp only [ho, if_true]
      ring
    · simp only [ho, if_false]
      have : (splitOnStr t chunk.contentLower).length - 1 = 0 := by omega
      rw [this]
      ring

theorem sum_map_add_split (l : List Str) (u v : Str → Nat) :
    (l.map (fun x => u x + v x)).sum = (l.map u).sum + (l.map v).sum := by
  induction l with
  | nil => simp
  | cons a l ih =>
    simp only [List.map_cons, List.sum_cons, ih]
    ring

theorem mem_retrieveScored {sanitize : Str → Str} {chunks : List VaultChunk}
    {tokens excludeFiles : List Str} {p : Nat × RetrievedChunk}
    (hp : p ∈ retrieveScored sanitize chunks tokens excludeFiles) :
    p.2.score = scoreChunk p.2.chunk tokens ∧ 0 < p.2.score
    ∧ p.2.chunk.file ∉ excludeFiles ∧ (p.1, p.2.chunk) ∈ chunks.enum
    ∧ p.2.source = ChunkSource.retrieved := by
  rcases List.mem_filterMap.mp hp with ⟨a, ha, heq⟩
  by_cases h1 : a.2.file ∈ excludeFiles
  · rw [if_pos h1] at heq
    exact absurd heq (by simp)
  · rw [if_neg h1] at heq
    by_cases h2 : scoreChunk a.2 tokens ≤ 0
    · rw [if_pos h2] at heq
      exact absurd heq (by simp)
    · rw [if_neg h2] at heq
      by_cases h3 : trimStr (sanitize a.2.content) = []
      · rw [if_pos h3] at heq
        exact absurd heq (by simp)
      · rw [if_neg h3] at heq
        have heq2 := Option.some_injective _ heq
        rw [← heq2]
        refine ⟨rfl, by dsimp only; omega, h1, ?_, rfl⟩
        simpa using ha

/-- C4 (amended): every token produced for a query is an alphanumeric run
of length at least three of the lowercased query; a chunk's score is five
times the summed non-overlapping occurrence counts of the tokens in the
lowercased content plus ten points for every (token, heading) pair in
which the lowercased heading contains the token (rather than ten per
token contained in at least one heading); and retrieval keeps only chunks
whose score, computed this way, is positive. -/
theorem scoreChunk_formula :
    (∀ (query : Str), ∀ t ∈ tokenize query,
      3 ≤ t.length ∧ ∀ c ∈ t, isTokenChar c = true)
    ∧ (∀ (chunk : VaultChunk) (tokens : List Str),
        scoreChunk chunk tokens
          = 5 * (tokens.map (fun token =>
              (splitOnStr token chunk.contentLower).length - 1)).sum
          + 10 * (tokens.map (fun token =>
              chunk.headings.countP
                (fun h => strIncludes (toLowerStr h) token))).sum)
    ∧ (∀ (sanitize : Str → Str) (chunks : List VaultChunk) (maxCtx : Nat)
        (tokens : List Str) (excludeFiles : List Str),
        ∀ r ∈ retrieveChunks sanitize chunks maxCtx tokens excludeFiles,
          0 < r.score ∧ r.score = scoreChunk r.chunk tokens) := by
  refine ⟨?_, ?_, ?_⟩
  · intro query t ht
    have hmem := List.mem_filter.mp ht
    refine ⟨by simpa using hmem.2, ?_⟩
    exact tokenRuns_chars (toLowerStr query) t hmem.1
  · intro chunk tokens
    unfold scoreChunk
    by_cases hemp : tokens.isEmpty
    · rw [if_pos hemp]
      rw [List.isEmpty_iff.mp hemp]
      simp
    · rw [if_neg hemp, scoreChunk_foldl_sum]
      rw [show (fun token =>
          ((splitOnStr token chunk.contentLower).length - 1) * 5
          + 10 * chunk.headings.countP
              (fun h => strIncludes (toLowerStr h) token))
        = (fun token =>
          5 * ((splitOnStr token chunk.contentLower).length - 1)
          + 10 * chunk.headings.countP
              (fun h => strIncludes (toLowerStr h) token)) from by
        funext token; ring]
      rw [sum_map_add_split, List.sum_map_mul_left, List.sum_map_mul_left]
      omega
  · intro sanitize chunks maxCtx tokens excludeFiles r hr
    rcases List.mem_map.mp hr with ⟨p, hp, hpr⟩
    have hp2 : p ∈ retrieveScored sanitize chunks tokens excludeFiles := by
      unfold retrieveChunksIdx at hp
      by_cases hz : maxCtx - excludeFiles.length = 0
      · rw [if_pos hz] at hp
        exact absurd hp (List.not_mem_nil p)
      · rw [if_neg hz] at hp
        exact (List.mem_mergeSort).mp (List.mem_of_mem_take hp)
    have hfacts := mem_retrieveScored hp2
    rw [← hpr]
    exact ⟨hfacts.2.1, hfacts.1⟩

/-- C4 witness: the token clause applied to the query string
`Hello, wo-rld`, whose first token is `hello`. -/
theorem scoreChunk_formula_witness :
    3 ≤ "hello".data.length ∧ isTokenChar 'h' = true :=
  ⟨(scoreChunk_formula.1 "Hello, wo-rld".data "hello".data (by decide)).1,
    (scoreChunk_formula.1 "Hello, wo-rld".data "hello".data (by decide)).2
      'h' (by decide)⟩

theorem pairwise_fst_lt_enumFrom {α : Type} (n : Nat) (l : List α) :
    (l.enumFrom n).Pairwise
      (fun (a b : Nat × α) => a.1 < b.1) := by
  induction l generalizing n with
  | nil => simp
  | cons a l ih =>
    rw [List.enumFrom_cons, List.pairwise_cons]
    refine ⟨?_, ih (n + 1)⟩
    rintro ⟨i, b⟩ hx
    have hle := List.le_fst_of_mem_enumFrom hx
    simpa using by omega

theorem retrieveScored_keeps_fst {sanitize : Str → Str}
    {tokens excludeFiles : List Str} (x : Nat × VaultChunk)
    (b : Nat × RetrievedChunk)
    (hb : (if x.2.file ∈ excludeFiles then none
      else if scoreChunk x.2 tokens ≤ 0 then none
      else if trimStr (sanitize x.2.content) = [] then none
      else some (x.1, ⟨x.2, scoreChunk x.2 tokens, ChunkSource.retrieved⟩))
        = some b) :
    b.1 = x.1 := by
  by_cases h1 : x.2.file ∈ excludeFiles
  · rw [if_pos h1] at hb; exact absurd hb (by simp)
  · rw [if_neg h1] at hb
    by_cases h2 : scoreChunk x.2 tokens ≤ 0
    · rw [if_pos h2] at hb; exact absurd hb (by simp)
    · rw [if_neg h2] at hb
      by_cases h3 : trimStr (sanitize x.2.content) = []
      · rw [if_pos h3] at hb; exact absurd hb (by simp)
      · rw [if_neg h3] at hb
        rw [← Option.some_injective _ hb]

theorem pairwise_fst_lt_retrieveScored (sanitize : Str → Str)
    (chunks : List VaultChunk) (tokens excludeFiles : List Str) :
    (retrieveScored sanitize chunks tokens excludeFiles).Pairwise
      (fun a b => a.1 < b.1) := by
  unfold retrieveScored
  rw [List.pairwise_filterMap]
  refine List.Pairwise.imp ?_ (pairwise_fst_lt_enumFrom 0 chunks)
  intro x y hxy b hb b2 hb2
  rw [retrieveScored_keeps_fst x b hb, retrieveScored_keeps_fst y b2 hb2]
  exact hxy

theorem jsByScoreDesc_trans (a b c : Nat × RetrievedChunk)
    (hab : jsByScoreDesc a b) (hbc : jsByScoreDesc b c) :
    jsByScoreDesc a c := by
  simp only [jsByScoreDesc, Bool.or_eq_true, Bool.and_eq_true,
    decide_eq_true_eq, beq_iff_eq] at hab hbc ⊢
  omega

theorem jsByScoreDesc_total (a b : Nat × RetrievedChunk) :
    jsByScoreDesc a b || jsByScoreDesc b a := by
  simp only [jsByScoreDesc, Bool.or_eq_true, Bool.and_eq_true,
    decide_eq_true_eq, beq_iff_eq]
  omega

/-- C6: with the total context budget defaulting to four, index-wide
retrieval given the active set returns at most `max_context - |active|`
chunks, never returns a chunk of a document represented in the active
set, and its index-tagged form is ordered by strictly descending score
with equal scores ordered by position in the chunk store (the stable-sort
tie-break), every tag pointing back at the store entry it came from. -/
theorem retrieveChunks_budget_order :
    DEFAULT_SETTINGS_ragMaxContext = 4
    ∧ (∀ (sanitize : Str → Str) (chunks : List VaultChunk) (maxCtx : Nat)
        (tokens : List Str) (active : List RetrievedChunk),
      (retrieveChunks sanitize chunks maxCtx tokens
          (active.map (fun r => r.chunk.file))).length ≤ maxCtx - active.length
      ∧ (∀ r ∈ retrieveChunks sanitize chunks maxCtx tokens
            (active.map (fun r => r.chunk.file)),
          r.chunk.file ∉ active.map (fun r => r.chunk.file))
      ∧ retrieveChunks sanitize chunks maxCtx tokens
            (active.map (fun r => r.chunk.file))
          = (retrieveChunksIdx sanitize chunks maxCtx tokens
              (active.map (fun r => r.chunk.file))).map (fun p => p.2)
      ∧ (retrieveChunksIdx sanitize chunks maxCtx tokens
            (active.map (fun r => r.chunk.file))).Pairwise
            (fun a b => b.2.score < a.2.score
              ∨ (a.2.score = b.2.score ∧ a.1 < b.1))
      ∧ (∀ p ∈ retrieveChunksIdx sanitize chunks maxCtx tokens
            (active.map (fun r => r.chunk.file)),
          (p.1, p.2.chunk) ∈ chunks.enum)) := by
  refine ⟨rfl, ?_⟩
  intro sanitize chunks maxCtx tokens active
  have hlen_ex : (active.map (fun r => r.chunk.file)).length = active.length :=
    List.length_map _ _
  have hmem_idx : ∀ p ∈ retrieveChunksIdx sanitize chunks maxCtx tokens
      (active.map (fun r => r.chunk.file)),
      p ∈ retrieveScored sanitize chunks tokens
        (active.map (fun r => r.chunk.file)) := by
    intro p hp
    unfold retrieveChunksIdx at hp
    by_cases hz : maxCtx - (active.map (fun r => r.chunk.file)).length = 0
    · rw [if_pos hz] at hp
      exact absurd hp (List.not_mem_nil p)
    · rw [if_neg hz] at hp
      exact (List.mem_mergeSort).mp (List.mem_of_mem_take hp)
  refine ⟨?_, ?_, rfl, ?_, ?_⟩
  · unfold retrieveChunks retrieveChunksIdx
    by_cases hz : maxCtx - (active.map (fun r => r.chunk.file)).length = 0
    · rw [if_pos hz]
      simp
    · rw [if_neg hz]
      rw [List.length_map, List.length_take]
      omega
  · intro r hr
    rcases List.mem_map.mp hr with ⟨p, hp, hpr⟩
    have := (mem_retrieveScored (hmem_idx p hp)).2.2.1
    rw [← hpr]
    exact this
  · unfold retrieveChunksIdx
    by_cases hz : maxCtx - (active.map (fun r => r.chunk.file)).length = 0
    · rw [if_pos hz]
      exact List.Pairwise.nil
    · rw [if_neg hz]
      have hsorted := List.sorted_mergeSort jsByScoreDesc_trans jsByScoreDesc_total
        (retrieveScored sanitize chunks tokens (active.map (fun r => r.chunk.file)))
      have hperm := List.mergeSort_perm
        (retrieveScored sanitize chunks tokens (active.map (fun r => r.chunk.file)))
        jsByScoreDesc
      have hlt := pairwise_fst_lt_retrieveScored sanitize chunks tokens
        (active.map (fun r => r.chunk.file))
      have hne_scored := hlt.imp (fun {a b} h => Nat.ne_of_lt h)
      have hne := (hperm.pairwise_iff (fun {x y} h => Ne.symm h)).mpr hne_scored
      have hboth := hsorted.and hne
      have htarget : (List.mergeSort
          (retrieveScored sanitize chunks tokens
            (active.map (fun r => r.chunk.file))) jsByScoreDesc).Pairwise
          (fun a b => b.2.score < a.2.score
            ∨ (a.2.score = b.2.score ∧ a.1 < b.1)) :=
        hboth.imp
          (fun {a b} h => by
            have h1 := h.1
            have h2 := h.2
            simp only [jsByScoreDesc, Bool.or_eq_true, Bool.and_eq_true,
              decide_eq_true_eq, beq_iff_eq] at h1
            omega)
      exact htarget.sublist (List.take_sublist _ _)
  · intro p hp
    exact (mem_retrieveScored (hmem_idx p hp)).2.2.2.1

/-- C6 witness: with the default budget four, one active chunk from
`A.md`, and a store holding an `A.md` chunk and a matching `B.md` chunk,
retrieval for the query `todo` fits the remaining budget of three and the
retrieved `B.md` chunk is not from an active document. -/
theorem retrieveChunks_budget_order_witness :
    (retrieveChunks (fun s => s)
        [⟨"A.md::0".data, "A.md".data, [], "alpha".data, "alpha".data, 0, 0, 5⟩,
         ⟨"B.md::0".data, "B.md".data, ["Todo".data], "TODO buy milk".data,
          "todo buy milk".data, 0, 0, 13⟩]
        4 (tokenize "todo".data)
        (([⟨⟨"A.md::0".data, "A.md".data, [], "alpha".data, "alpha".data,
            0, 0, 5⟩, 1000, ChunkSource.active⟩] : List RetrievedChunk).map
          (fun r => r.chunk.file))).length
      ≤ 4 - ([⟨⟨"A.md::0".data, "A.md".data, [], "alpha".data, "alpha".data,
            0, 0, 5⟩, 1000, ChunkSource.active⟩] : List RetrievedChunk).length
    ∧ "B.md".data ∉
        (([⟨⟨"A.md::0".data, "A.md".data, [], "alpha".data, "alpha".data,
            0, 0, 5⟩, 1000, ChunkSource.active⟩] : List RetrievedChunk).map
          (fun r => r.chunk.file)) := by
  have hres : retrieveChunks (fun s => s)
      [⟨"A.md::0".data, "A.md".data, [], "alpha".data, "alpha".data, 0, 0, 5⟩,
       ⟨"B.md::0".data, "B.md".data, ["Todo".data], "TODO buy milk".data,
        "todo buy milk".data, 0, 0, 13⟩]
      4 (tokenize "todo".data)
      (([⟨⟨"A.md::0".data, "A.md".data, [], "alpha".data, "alpha".data,
          0, 0, 5⟩, 1000, ChunkSource.active⟩] : List RetrievedChunk).map
        (fun r => r.chunk.file))
      = [⟨⟨"B.md::0".data, "B.md".data, ["Todo".data], "TODO buy milk".data,
          "todo buy milk".data, 0, 0, 13⟩, 15, ChunkSource.retrieved⟩] := by
    have hscored : retrieveScored (fun s => s)
        [⟨"A.md::0".data, "A.md".data, [], "alpha".data, "alpha".data, 0, 0, 5⟩,
         ⟨"B.md::0".data, "B.md".data, ["Todo".data], "TODO buy milk".data,
          "todo buy milk".data, 0, 0, 13⟩]
        (tokenize "todo".data) ["A.md".data]
        = [(1, ⟨⟨"B.md::0".data, "B.md".data, ["Todo".data],
            "TODO buy milk".data, "todo buy milk".data, 0, 0, 13⟩, 15,
            ChunkSource.retrieved⟩)] := by decide
    unfold retrieveChunks retrieveChunksIdx
    simp only [List.map_cons, List.map_nil]
    rw [hscored]
    rw [List.mergeSort_of_sorted (List.pairwise_singleton _ _)]
    decide
  have h := retrieveChunks_budget_order.2 (fun s => s)
    [⟨"A.md::0".data, "A.md".data, [], "alpha".data, "alpha".data, 0, 0, 5⟩,
     ⟨"B.md::0".data, "B.md".data, ["Todo".data], "TODO buy milk".data,
      "todo buy milk".data, 0, 0, 13⟩]
    4 (tokenize "todo".data)
    [⟨⟨"A.md::0".data, "A.md".data, [], "alpha".data, "alpha".data,
      0, 0, 5⟩, 1000, ChunkSource.active⟩]
  refine ⟨h.1, ?_⟩
  have hmem : (⟨⟨"B.md::0".data, "B.md".data, ["Todo".data],
      "TODO buy milk".data, "todo buy milk".data, 0, 0, 13⟩, 15,
      ChunkSource.retrieved⟩ : RetrievedChunk) ∈
      retrieveChunks (fun s => s)
        [⟨"A.md::0".data, "A.md".data, [], "alpha".data, "alpha".data, 0, 0, 5⟩,
         ⟨"B.md::0".data, "B.md".data, ["Todo".data], "TODO buy milk".data,
          "todo buy milk".data, 0, 0, 13⟩]
        4 (tokenize "todo".data)
        (([⟨⟨"A.md::0".data, "A.md".data, [], "alpha".data, "alpha".data,
            0, 0, 5⟩, 1000, ChunkSource.active⟩] : List RetrievedChunk).map
          (fun r => r.chunk.file)) := by
    rw [hres]
    exact List.mem_singleton.mpr rfl
  exact h.2.1 _ hmem

theorem dropWhile_head_false (l : Str) (a : Char) (t : Str)
    (h : l.dropWhile isWsChar = a :: t) : isWsChar a = false := by
  induction l with
  | nil => exact absurd h (by simp)
  | cons c cs ih =>
    by_cases hc : isWsChar c
    · rw [List.dropWhile_cons_of_pos hc] at h
      exact ih h
    · rw [List.dropWhile_cons_of_neg hc] at h
      rw [← (List.cons_eq_cons.mp h).1]
      exact Bool.not_eq_true _ ▸ eq_false_of_ne_true hc

theorem exists_nonws_of_trim_ne_nil (l : Str) (h : trimStr l ≠ []) :
    ∃ ch ∈ trimStr l, isWsChar ch = false := by
  unfold trimStr at h ⊢
  cases hm : ((l.dropWhile isWsChar).reverse.dropWhile isWsChar) with
  | nil => rw [hm] at h; simp at h
  | cons a t =>
    refine ⟨a, ?_, dropWhile_head_false _ a t hm⟩
    exact List.mem_reverse.mpr (List.mem_cons_self a t)

theorem ChunkInv_offset_bump (st : ChunkState) (k : Nat) (h : ChunkInv st) :
    ChunkInv { st with offset := st.offset + k } := by
  refine ⟨h.ok, h.chain, h.lastEnd, h.curNoHead, h.curBound, ?_⟩
  show st.chunkStart ≤ st.offset + k
  have := h.startLe
  omega

theorem ChunkInv_set_headings (st : ChunkState) (hs : List Str)
    (h : ChunkInv st) : ChunkInv { st with headings := hs } :=
  ⟨h.ok, h.chain, h.lastEnd, h.curNoHead, h.curBound, h.startLe⟩

theorem pushChunk_inv (path : Str) (mtime : Nat) (st : ChunkState)
    (hok : ∀ c ∈ st.chunks, ChunkOk c)
    (hchain : st.chunks.Chain' (fun a b => a.«end» = b.start))
    (hlast : ∀ c, st.chunks.getLast? = some c → c.«end» = st.chunkStart)
    (hcur : ∀ l ∈ st.current, startsHash (trimStr l) = false)
    (hbound : (joinLines st.current).length ≤ 800
      ∨ (joinLines st.current.dropLast).length ≤ 800)
    (hstart : st.chunkStart ≤ st.offset) :
    ChunkInv (pushChunk path mtime st)
    ∧ (pushChunk path mtime st).current = []
    ∧ (pushChunk path mtime st).offset = st.offset
    ∧ (pushChunk path mtime st).headings = st.headings := by
  by_cases h : trimStr (joinLines st.current) = []
  · have he : pushChunk path mtime st = { st with current := [] } := by
      unfold pushChunk
      rw [if_pos h]
    rw [he]
    refine ⟨⟨hok, hchain, hlast, ?_, ?_, hstart⟩, rfl, rfl, rfl⟩
    · intro l hl
      exact absurd hl (List.not_mem_nil l)
    · show (joinLines []).length ≤ 800
      simp [joinLines]
  · have he : pushChunk path mtime st = { st with
        chunks := st.chunks ++ [{
          id := path ++ ':' :: ':' :: (Nat.repr st.chunkIndex).data,
          file := path,
          headings := st.headings,
          content := trimStr (joinLines st.current),
          contentLower := toLowerStr (trimStr (joinLines st.current)),
          updated := mtime,
          start := st.chunkStart,
          «end» := st.offset }],
        chunkIndex := st.chunkIndex + 1,
        current := [],
        chunkStart := st.offset } := by
      unfold pushChunk
      rw [if_neg h]
    have hcurne : st.current ≠ [] := by
      intro hnil
      rw [hnil] at h
      exact h rfl
    have hcok : ChunkOk {
        id := path ++ ':' :: ':' :: (Nat.repr st.chunkIndex).data,
        file := path,
        headings := st.headings,
        content := trimStr (joinLines st.current),
        contentLower := toLowerStr (trimStr (joinLines st.current)),
        updated := mtime,
        start := st.chunkStart,
        «end» := st.offset } :=
      ⟨hstart, exists_nonws_of_trim_ne_nil _ h,
        st.current, hcurne, rfl, hcur, hbound⟩
    rw [he]
    refine ⟨⟨?_, ?_, ?_, ?_, ?_, le_refl _⟩, rfl, rfl, rfl⟩
    · intro c hc
      rcases List.mem_append.mp hc with hc | hc
      · exact hok c hc
      · rw [List.mem_singleton.mp hc]
        exact hcok
    · rw [List.chain'_append]
      refine ⟨hchain, List.chain'_singleton _, ?_⟩
      intro x hx y hy
      rw [List.head?_cons, Option.mem_def] at hy
      rw [← Option.some_injective _ hy]
      exact hlast x (Option.mem_def.mp hx)
    · intro c hc
      rw [List.getLast?_concat] at hc
      rw [← Option.some_injective _ hc]
    · intro l hl
      exact absurd hl (List.not_mem_nil l)
    · show (joinLines []).length ≤ 800
      simp [joinLines]

theorem chunkStep_inv (path : Str) (mtime : Nat) (st : ChunkState)
    (line : Str) (hinv : ChunkInv st) :
    ChunkInv (chunkStep path mtime st line) := by
  unfold chunkStep
  by_cases hh : startsHash (trimStr line)
  · rw [if_pos hh]
    have hp := pushChunk_inv path mtime st hinv.ok hinv.chain hinv.lastEnd
      hinv.curNoHead (Or.inl hinv.curBound) hinv.startLe
    exact ChunkInv_offset_bump _ _
      (ChunkInv_set_headings _ _ hp.1)
  · rw [if_neg hh]
    by_cases hb : 800 < (joinLines (st.current ++ [line])).length
    · rw [if_pos hb]
      have hcur2 : ∀ l ∈ st.current ++ [line],
          startsHash (trimStr l) = false := by
        intro l hl
        rcases List.mem_append.mp hl with hl | hl
        · exact hinv.curNoHead l hl
        · rw [List.mem_singleton.mp hl]
          exact eq_false_of_ne_true hh
      have hp := pushChunk_inv path mtime
        { st with current := st.current ++ [line] }
        hinv.ok hinv.chain hinv.lastEnd hcur2
        (Or.inr (by
          show (joinLines (st.current ++ [line]).dropLast).length ≤ 800
          rw [List.dropLast_concat]
          exact hinv.curBound))
        hinv.startLe
      exact ChunkInv_offset_bump _ _ hp.1
    · rw [if_neg hb]
      refine ChunkInv_offset_bump _ _
        ⟨hinv.ok, hinv.chain, hinv.lastEnd, ?_, ?_, hinv.startLe⟩
      · intro l hl
        rcases List.mem_append.mp hl with hl | hl
        · exact hinv.curNoHead l hl
        · rw [List.mem_singleton.mp hl]
          exact eq_false_of_ne_true hh
      · show (joinLines (st.current ++ [line])).length ≤ 800
        omega

theorem chunkFold_inv (path : Str) (mtime : Nat) :
    ∀ (lines : List Str) (st : ChunkState), ChunkInv st →
    ChunkInv (lines.foldl (chunkStep path mtime) st) := by
  intro lines
  induction lines with
  | nil => intro st h; exact h
  | cons l ls ih =>
    intro st h
    exact ih _ (chunkStep_inv path mtime st l h)

/-- C8: every chunk list produced by `chunkFile` has contiguous,
non-overlapping offsets in document order (each chunk's end offset is the
next chunk's start, and starts do not exceed ends), and every chunk is
built from a non-empty batch of non-heading lines (a heading line always
flushes), is not whitespace-only, and respects the 800-character soft
bound: at most the final accumulated line pushes the joined text past
800 characters. -/
theorem chunkFile_invariants :
    ∀ (path : Str) (mtime : Nat) (content : Str),
    (chunkFile path mtime content).Chain' (fun a b => a.«end» = b.start)
    ∧ ∀ c ∈ chunkFile path mtime content, ChunkOk c := by
  intro path mtime content
  have hinit : ChunkInv ⟨[], [], [], 0, 0, 0⟩ := by
    refine ⟨?_, List.chain'_nil, ?_, ?_, ?_, le_refl 0⟩
    · intro c hc; exact absurd hc (List.not_mem_nil c)
    · intro c hc; exact absurd hc (by simp)
    · intro l hl; exact absurd hl (List.not_mem_nil l)
    · simp [joinLines]
  have hfold := chunkFold_inv path mtime (splitLinesStr content)
    ⟨[], [], [], 0, 0, 0⟩ hinit
  have hp := pushChunk_inv path mtime
    ((splitLinesStr content).foldl (chunkStep path mtime) ⟨[], [], [], 0, 0, 0⟩)
    hfold.ok hfold.chain hfold.lastEnd hfold.curNoHead
    (Or.inl hfold.curBound) hfold.startLe
  exact ⟨hp.1.chain, hp.1.ok⟩

/-- C8 witness: the single chunk of the one-line document `hello`
satisfies the chunk invariants. -/
theorem chunkFile_invariants_witness :
    ChunkOk ⟨"d.md::0".data, "d.md".data, [], "hello".data, "hello".data,
      0, 0, 6⟩ :=
  (chunkFile_invariants "d.md".data 0 "hello".data).2
    ⟨"d.md::0".data, "d.md".data, [], "hello".data, "hello".data, 0, 0, 6⟩
    (by decide)

end LonelyAssistant
